import Mathlib

set_option maxRecDepth 40000

/-!
Verification of the Snooty DSL prototype (a tiny language for scraping
HTML).  The development embeds the notebook's grammar classes
(Comment, LocaleStatement, SelectorStatement, ExportStatement, Script)
and its interpreter function run, together with models of the two
external collaborators the interpreter calls into (the lxml document
tree with its xpath and tostring operations, and the process-wide
locale set by locale.setlocale).  The locale is threaded explicitly as
a state parameter so that its process-wide mutation is observable in
the model.
-/

/-! ## Document model

The document tree produced by the external Document Provider
(lxml etree).  Element and text nodes; attributes are an ordered
association list.  A mutual pair of inductives is used instead of a
nested List so that all functions below are structural recursions. -/

mutual
inductive Node where
  | elem (tag : String) (attrs : List (String × String)) (children : NodeList)
  | text (s : String)
inductive NodeList where
  | nil
  | cons (hd : Node) (tl : NodeList)
end

/-- Builds a NodeList from a plain list, for readable document literals. -/
def nl : List Node → NodeList
  | [] => .nil
  | c :: cs => .cons c (nl cs)

/-- Serializes an attribute list in document order, lxml style:
a space, the name, an equals sign and the double-quoted value. -/
def attrsString : List (String × String) → String
  | [] => ""
  | (k, v) :: rest => " " ++ k ++ "=" ++ "\"" ++ v ++ "\"" ++ attrsString rest

mutual
/-- Modelled from the spec: the Document Provider operation
serialize(node handle) -> markup text, i.e. lxml etree.tostring.
It re-serializes the parsed node: attributes come out double-quoted in
canonical form, childless elements self-close. -/
def tostring : Node → String
  | .text s => s
  | .elem t a cs =>
    match cs with
    | .nil => "<" ++ t ++ attrsString a ++ "/>"
    | .cons c rest =>
      "<" ++ t ++ attrsString a ++ ">" ++ tostringL (.cons c rest) ++ "</" ++ t ++ ">"

/-- Serializes a list of child nodes in order. -/
def tostringL : NodeList → String
  | .nil => ""
  | .cons c cs => tostring c ++ tostringL cs
end

mutual
/-- Modelled from the spec: the Document Provider operation
query(pattern) -> ordered sequence of node handles, for the pattern
the interpreter builds, the XPath //parent/child.  Standard XPath
semantics: all elements whose tag equals child and whose direct parent
element has tag equal to parent, in document order.  The flag records
whether the enclosing element matched parent. -/
def xpathPC (parent child : String) (inParent : Bool) : Node → List Node
  | .text _ => []
  | .elem t a cs =>
    (if inParent && (t == child) then [Node.elem t a cs] else []) ++
      xpathPCL parent child (t == parent) cs

/-- Runs xpathPC over a list of sibling nodes, concatenating in order. -/
def xpathPCL (parent child : String) (inParent : Bool) : NodeList → List Node
  | .nil => []
  | .cons c cs => xpathPC parent child inParent c ++ xpathPCL parent child inParent cs
end

/-- Tag test for an element node. -/
def hasTag (t : String) : Node → Bool
  | .elem t2 _ _ => t2 == t
  | .text _ => false

mutual
/-- Document-order enumeration of the elements of a tree, each paired
with the tag of its direct parent element (none for the root).  Used
to state what the resolver returns independently of how xpathPC
recurses. -/
def elemsWithCtx (ctx : Option String) : Node → List (Option String × Node)
  | .text _ => []
  | .elem t a cs => (ctx, Node.elem t a cs) :: elemsWithCtxL (some t) cs

/-- elemsWithCtx mapped over a sibling list, concatenating in order. -/
def elemsWithCtxL (ctx : Option String) : NodeList → List (Option String × Node)
  | .nil => []
  | .cons c cs => elemsWithCtx ctx c ++ elemsWithCtxL ctx cs
end

/-- The document-order filter characterization of the direct-child
query: elements whose tag is child and whose direct parent element has
tag parent. -/
def directChildMatches (parent child : String) (doc : Node) : List Node :=
  ((elemsWithCtx none doc).filter
    (fun pr => pr.1 == some parent && hasTag child pr.2)).map (fun pr => pr.2)

mutual
/-- Modelled from the spec: the selector relationship as the spec
words it, namely all nodes whose tag matches child and whose
ancestor-or-self chain includes a node matching parent.  Written only
to be compared against the query the code actually issues. -/
def specSelect (parent child : String) (anc : Bool) : Node → List Node
  | .text _ => []
  | .elem t a cs =>
    (if (anc || (t == parent)) && (t == child) then [Node.elem t a cs] else []) ++
      specSelectL parent child (anc || (t == parent)) cs

/-- specSelect over a sibling list, concatenating in order. -/
def specSelectL (parent child : String) (anc : Bool) : NodeList → List Node
  | .nil => []
  | .cons c cs => specSelect parent child anc c ++ specSelectL parent child anc cs
end

/-! ## Character-level string helpers

Kernel-computable replacements for the string splitting the parser
needs (line splitting, whitespace tokenization, dotted names). -/

/-- Whitespace test: space, tab, carriage return or line feed. -/
def isSpaceCh (c : Char) : Bool :=
  c = Char.ofNat 32 || c = Char.ofNat 9 || c = Char.ofNat 13 || c = Char.ofNat 10

/-- Splits a character list at every occurrence of the separator. -/
def splitOnChar (sep : Char) : List Char → List (List Char)
  | [] => [[]]
  | c :: cs =>
    let r := splitOnChar sep cs
    if c = sep then [] :: r
    else
      match r with
      | [] => [[c]]
      | g :: gs => (c :: g) :: gs

/-- Whitespace tokenizer: groups maximal runs of non-space characters,
accumulating the current word in reverse. -/
def wordsAux (acc : List Char) : List Char → List (List Char)
  | [] => if acc.isEmpty then [] else [acc.reverse]
  | c :: cs =>
    if isSpaceCh c then
      if acc.isEmpty then wordsAux [] cs else acc.reverse :: wordsAux [] cs
    else wordsAux (c :: acc) cs

/-- The whitespace-separated tokens of a string. -/
def tokensOf (s : String) : List String :=
  (wordsAux [] s.toList).map String.mk

/-- The lines of a string, split at line feeds. -/
def splitLines (s : String) : List String :=
  (splitOnChar (Char.ofNat 10) s.toList).map String.mk

/-- The dot-separated segments of a dotted name. -/
def splitDots (s : String) : List String :=
  (splitOnChar (Char.ofNat 46) s.toList).map String.mk

/-- Drops leading whitespace from a character list. -/
def dropLeading : List Char → List Char
  | [] => []
  | c :: cs => if isSpaceCh c then dropLeading cs else c :: cs

/-- Trims whitespace from both ends of a string. -/
def trimS (s : String) : String :=
  String.mk ((dropLeading (dropLeading s.toList).reverse).reverse)

/-- True when the (trimmed) line opens with the comment marker. -/
def startsHash (s : String) : Bool :=
  match s.toList with
  | c :: _ => c = Char.ofNat 35
  | [] => false

/-- A pypeg2 word token: one or more \w characters
(letters, digits or underscore). -/
def isWord (s : String) : Bool :=
  !s.toList.isEmpty && s.toList.all (fun c => c.isAlphanum || c = Char.ofNat 95)

/-- Naive substring test at the head position. -/
def listPrefixB : List Char → List Char → Bool
  | [], _ => true
  | _ :: _, [] => false
  | a :: xs, b :: ys => a == b && listPrefixB xs ys

/-- Naive substring occurrence test. -/
def listInfixB (needle : List Char) : List Char → Bool
  | [] => listPrefixB needle []
  | b :: ys => listPrefixB needle (b :: ys) || listInfixB needle ys

/-- True when needle occurs contiguously inside hay. -/
def strContains (hay needle : String) : Bool :=
  listInfixB needle.toList hay.toList

/-! ## AST

The statement classes of the grammar cell: Comment, LocaleStatement,
SelectorStatement (whose right-hand side is a Selector with parent and
child word tokens around the arrow) and ExportStatement (a DottedName
on the left, a selector name on the right). -/

/-- The Selector grammar class: parent word, the arrow, child word. -/
structure Selector where
  parent : String
  child : String

/-- One parsed statement of a Script. -/
inductive Stmt where
  | comment (txt : String)
  | localeStmt (loc : String)
  | selectorStmt (nm : String) (sel : Selector)
  | exportStmt (path : List String) (sel : String)

/-- Errors a run can surface.  parseErr models a pypeg2 SyntaxError on
the offending line; undefinedSelector the uncaught KeyError from the
selector-table lookup; typeErr the uncaught TypeError raised when the
export descent indexes a list (a leaf) with a string key; indexErr the
uncaught IndexError from taking the last segment of an empty path. -/
inductive Err where
  | parseErr (line : String)
  | undefinedSelector (nm : String)
  | typeErr
  | indexErr
deriving DecidableEq

/-! ## Parser

Line-oriented reading of the Script grammar: blank lines are skipped,
a hash line is a Comment, and the three keyword statements must match
their shape exactly; any other line is a hard parse failure (pypeg2
raises a SyntaxError for text the maybe_some alternatives cannot
consume). -/

/-- Parses one line into a statement (none for a blank line). -/
def parseLine (line : String) : Except Err (Option Stmt) :=
  let t := trimS line
  if t = "" then .ok none
  else if startsHash t then .ok (some (.comment (t.drop 1)))
  else
    match tokensOf t with
    | ["locale", w] =>
      if isWord w then .ok (some (.localeStmt w)) else .error (.parseErr line)
    | ["selector", n, "=", p, "->", c] =>
      if isWord n && isWord p && isWord c then .ok (some (.selectorStmt n ⟨p, c⟩))
      else .error (.parseErr line)
    | ["export", d, "=", s] =>
      if (splitDots d).all isWord && isWord s then .ok (some (.exportStmt (splitDots d) s))
      else .error (.parseErr line)
    | _ => .error (.parseErr line)

/-- Parses a list of lines into the statement sequence, stopping at
the first unrecognized line. -/
def parseLines : List String → Except Err (List Stmt)
  | [] => .ok []
  | l :: ls =>
    match parseLine l with
    | .error e => .error e
    | .ok s? =>
      match parseLines ls with
      | .error e => .error e
      | .ok rest =>
        match s? with
        | some s => .ok (s :: rest)
        | none => .ok rest

/-- Parses a whole script text (the parse call of run). -/
def parseScript (code : String) : Except Err (List Stmt) :=
  parseLines (splitLines code)

/-! ## Export tree and the export descent -/

/-- A value in the export mapping: either a nested mapping (a Python
dict, as an ordered association list) or a leaf holding the serialized
matches (a Python list). -/
inductive EVal where
  | leaf (vs : List String)
  | tree (m : List (String × EVal))

/-- Dict lookup. -/
def lookupKey : List (String × EVal) → String → Option EVal
  | [], _ => none
  | (k, v) :: m, k2 => if k = k2 then some v else lookupKey m k2

/-- Dict assignment: an existing key keeps its position, a new key is
appended, matching Python dict insertion order. -/
def setKey : List (String × EVal) → String → EVal → List (String × EVal)
  | [], k, v => [(k, v)]
  | (k2, v2) :: m, k, v => if k2 = k then (k, v) :: m else (k2, v2) :: setKey m k v

/-- Reads the value stored at a dotted path, none if absent or if the
path runs through a leaf. -/
def getPath : EVal → List String → Option EVal
  | e, [] => some e
  | .leaf _, _ :: _ => none
  | .tree m, k :: rest =>
    match lookupKey m k with
    | some v => getPath v rest
    | none => none

/-- True when walking the path meets a leaf strictly before the last
segment is consumed (the situation in which the export loop or its
final assignment indexes a list with a string). -/
def hitsLeaf : EVal → List String → Bool
  | _, [] => false
  | .leaf _, _ :: _ => true
  | .tree m, k :: rest =>
    match lookupKey m k with
    | some v => hitsLeaf v rest
    | none => false

/-- The body of the ExportStatement branch of run: walk the dotted
path, creating intermediate dicts for missing segments; after the walk
force the delayed selector lookup valsE (Python evaluates
selectors[stmt.selector] after the descent loop and before the final
assignment); then assign the leaf.  Reaching a list mid-walk raises
TypeError before the lookup; reaching a list at the final assignment
raises TypeError after it. -/
def doExport (valsE : Except Err (List String)) : EVal → List String → Except Err EVal
  | _, [] => .error .indexErr
  | .tree m, [last] =>
    match valsE with
    | .error e => .error e
    | .ok vs => .ok (.tree (setKey m last (.leaf vs)))
  | .leaf _, [_] =>
    match valsE with
    | .error e => .error e
    | .ok _ => .error .typeErr
  | .tree m, nm :: r :: rest =>
    match doExport valsE
        (match lookupKey m nm with
         | some c => c
         | none => .tree []) (r :: rest) with
    | .error e => .error e
    | .ok c2 => .ok (.tree (setKey m nm c2))
  | .leaf _, _ :: _ :: _ => .error .typeErr

/-! ## Interpreter -/

/-- The state the loop of run threads: the process-wide locale (the
global state behind locale.setlocale), the selectors dict and the
export dict. -/
structure EvalState where
  localeSt : String
  selectors : String → Option Selector
  exportT : EVal

/-- The fresh state at the start of run: ambient locale g, empty
selectors dict, empty export dict. -/
def initState (g : String) : EvalState :=
  ⟨g, fun _ => none, .tree []⟩

/-- The matches of a named selector, serialized: the delayed
selectors[name] lookup followed by the xpath query and tostring map. -/
def selVals (doc : Node) (selectors : String → Option Selector) (n : String) :
    Except Err (List String) :=
  match selectors n with
  | none => .error (.undefinedSelector n)
  | some sel => .ok ((xpathPC sel.parent sel.child false doc).map tostring)

/-- One iteration of the statement loop of run. -/
def evalStmt (doc : Node) (st : EvalState) : Stmt → Except Err EvalState
  | .comment _ => .ok st
  | .localeStmt w => .ok { st with localeSt := w }
  | .selectorStmt n sel =>
    .ok { st with selectors := fun k => if k = n then some sel else st.selectors k }
  | .exportStmt path n =>
    match doExport (selVals doc st.selectors n) st.exportT path with
    | .error e => .error e
    | .ok e2 => .ok { st with exportT := e2 }

/-- The statement loop of run: first error aborts. -/
def evalStmts (doc : Node) : List Stmt → EvalState → Except Err EvalState
  | [], st => .ok st
  | s :: rest, st =>
    match evalStmt doc st s with
    | .error e => .error e
    | .ok st2 => evalStmts doc rest st2

/-- The scraper global of the notebook, verbatim. -/
def scraper : String :=
  "\n# You can define a locale used for parsing numbers and dates:\nlocale en_US\n\n# The \"selector\" command defines a selection of HTML\n# nodes.\nselector paragraph = p -> a\nselector list_items = li -> a\n\n# The export command defines data elements that should\n# be produced as the result of scraping.\nexport foo.paragraph = paragraph\nexport foo.list = list_items\n"

/-- Parsing plus the statement loop on a given script text: what the
body of run does to the text it parses.  Takes the already-parsed
document tree (HTML parsing belongs to the external Document Provider)
and the ambient process locale, and yields the export dict run prints
together with the process locale left behind. -/
def runScript (code : String) (doc : Node) (g : String) : Except Err (EVal × String) :=
  match parseScript code with
  | .error e => .error e
  | .ok ast =>
    match evalStmts doc ast (initState g) with
    | .error e => .error e
    | .ok st => .ok (st.exportT, st.localeSt)

/-- The run function of the notebook.  Faithful to the source: its
body calls parse(scraper, Script), the module-global scraper, so the
code argument is never consulted. -/
def run (code : String) (doc : Node) (g : String) : Except Err (EVal × String) :=
  runScript scraper doc g

/-! ## The notebook's concrete inputs -/

/-- A single-quote character, kept out of string literals. -/
def squo : String := String.singleton (Char.ofNat 39)

/-- The doc global of the notebook, verbatim: the raw HTML text handed
to run (and by run to etree.fromstring). -/
def docHtml : String :=
  "<!DOCTYPE html>\n<html>\n<body>\n    <h1>A Heading</h1>\n    <p>A paragraph. It contains <a href=" ++ squo ++ "/foo" ++ squo ++ ">a link.</a></p>\n    <ol>\n        <li>Link <a href=" ++ squo ++ "/1.html" ++ squo ++ ">one</a></li>\n        <li>Link <a href=" ++ squo ++ "/2.html" ++ squo ++ ">two</a></li>\n        <li>Link <a href=" ++ squo ++ "/3.html" ++ squo ++ ">three</a></li>\n    </ol>\n</body>\n</html>"

/-- The anchor inside the paragraph, as a parsed node. -/
def fooAnchor : Node :=
  .elem "a" [("href", "/foo")] (nl [.text "a link."])

/-- The document tree etree.fromstring builds from docHtml (the
DOCTYPE does not enter the element tree; whitespace text is kept). -/
def docTree : Node :=
  .elem "html" [] (nl [
    .text "\n",
    .elem "body" [] (nl [
      .text "\n    ",
      .elem "h1" [] (nl [.text "A Heading"]),
      .text "\n    ",
      .elem "p" [] (nl [.text "A paragraph. It contains ", fooAnchor]),
      .text "\n    ",
      .elem "ol" [] (nl [
        .text "\n        ",
        .elem "li" [] (nl [.text "Link ", .elem "a" [("href", "/1.html")] (nl [.text "one"])]),
        .text "\n        ",
        .elem "li" [] (nl [.text "Link ", .elem "a" [("href", "/2.html")] (nl [.text "two"])]),
        .text "\n        ",
        .elem "li" [] (nl [.text "Link ", .elem "a" [("href", "/3.html")] (nl [.text "three"])]),
        .text "\n    "]),
      .text "\n"]),
    .text "\n"])

/-- The serialized paragraph anchor as the notebook's recorded output
shows it (double-quoted attribute). -/
def serializedAnchor : String := "<a href=\"/foo\">a link.</a>"

/-- The anchor as it is spelled in docHtml (single-quoted attribute). -/
def rawAnchor : String := "<a href=" ++ squo ++ "/foo" ++ squo ++ ">a link.</a>"

/-- The export dict of the recorded output cell: foo.paragraph holds
the paragraph anchor, foo.list the three list anchors. -/
def fullTree : EVal :=
  .tree [("foo", .tree [
    ("paragraph", .leaf [serializedAnchor]),
    ("list", .leaf ["<a href=\"/1.html\">one</a>", "<a href=\"/2.html\">two</a>",
                    "<a href=\"/3.html\">three</a>"])])]

/-- The three-line script of the end-to-end example in the spec. -/
def threeLineScript : String :=
  "locale en_US\nselector paragraph = p -> a\nexport foo.paragraph = paragraph"

/-- The export tree the end-to-end example claims: a single leaf at
foo.paragraph. -/
def claimedTree : EVal :=
  .tree [("foo", .tree [("paragraph", .leaf [serializedAnchor])])]

example : run threeLineScript docTree "C" = .ok (fullTree, "en_US") := by rfl
example : runScript threeLineScript docTree "C" = .ok (claimedTree, "en_US") := by rfl
example : strContains docHtml rawAnchor = true := by rfl
example : strContains docHtml serializedAnchor = false := by rfl
example : tostring fooAnchor = serializedAnchor := by rfl
example : xpathPC "p" "a" false docTree = [fooAnchor] := by rfl

/-! ## Claim theorems -/

/-- C1 (counterexample).  Running the three-line example script does
not produce the claimed single-leaf tree: run parses the module-global
scraper instead of its code argument, so the result also carries the
foo.list leaf of the notebook's scraper. -/
theorem run_three_line_not_claimed :
    run threeLineScript docTree "C" = .ok (fullTree, "en_US") ∧
    getPath fullTree ["foo", "list"] =
      some (.leaf ["<a href=\"/1.html\">one</a>", "<a href=\"/2.html\">two</a>",
                   "<a href=\"/3.html\">three</a>"]) ∧
    getPath claimedTree ["foo", "list"] = none ∧
    run threeLineScript docTree "C" ≠ .ok (claimedTree, "en_US") := by
  refine ⟨rfl, rfl, rfl, fun h => ?_⟩
  have h1 : (Except.ok (fullTree, "en_US") : Except Err (EVal × String)) =
      .ok (claimedTree, "en_US") := Eq.trans (Eq.symm (by rfl)) h
  have h2 : fullTree = claimedTree := by
    injection h1 with hpair
    exact congrArg Prod.fst hpair
  have h3 : (some (EVal.leaf ["<a href=\"/1.html\">one</a>", "<a href=\"/2.html\">two</a>",
      "<a href=\"/3.html\">three</a>"]) : Option EVal) = none :=
    congrArg (fun t => getPath t ["foo", "list"]) h2
  exact Option.noConfusion h3

/-- C1 (amended).  Whatever code text is passed, run evaluates the
module-global scraper against the document, so against the notebook
document it always yields the recorded two-leaf tree (and leaves the
process locale at en_US); evaluating the three-line script itself
(what run was evidently meant to do with its argument) does yield the
claimed single-leaf tree. -/
theorem run_always_yields_scraper_result (code : String) (g : String) :
    run code docTree g = .ok (fullTree, "en_US") ∧
    runScript threeLineScript docTree g = .ok (claimedTree, "en_US") := ⟨rfl, rfl⟩

/-- C1 (witness): the amended theorem at a concrete code text and
ambient locale. -/
theorem run_always_yields_scraper_result_witness :
    run "arbitrary text, never parsed" docTree "C" = .ok (fullTree, "en_US") ∧
    runScript threeLineScript docTree "C" = .ok (claimedTree, "en_US") :=
  run_always_yields_scraper_result "arbitrary text, never parsed" "C"

/-- C3.  The LocaleDeclaration mutates the process-wide locale (the
model threads it explicitly): a run entered with ambient locale C
finishes with the process locale set to en_US, so the locale state
survives the evaluation and is visible to any other evaluation in the
same process; the spec requires it to stay confined to the one
evaluation. -/
theorem locale_mutation_is_global :
    run threeLineScript docTree "C" = .ok (fullTree, "en_US") ∧
    ("en_US" : String) ≠ "C" := ⟨rfl, by decide⟩

/-- C4.  The result of run does not depend on its first (code)
parameter: the body parses the module-global scraper binding, never
the argument. -/
theorem run_ignores_code_argument (c1 c2 : String) (doc : Node) (g : String) :
    run c1 doc g = run c2 doc g := rfl

/-- C5 (counterexample).  The value stored for the matched anchor is
not the node's raw markup as spelled in the input document: the input
spells the anchor with single-quoted href (rawAnchor occurs in
docHtml), while the stored value is the re-encoded double-quoted form,
which occurs nowhere in the input text. -/
theorem serialization_not_raw_input :
    Except.map Prod.fst (run scraper docTree "C") = .ok fullTree ∧
    getPath fullTree ["foo", "paragraph"] = some (.leaf [serializedAnchor]) ∧
    strContains docHtml rawAnchor = true ∧
    strContains docHtml serializedAnchor = false ∧
    serializedAnchor ≠ rawAnchor := ⟨rfl, rfl, rfl, rfl, by decide⟩

/-- C5 (amended).  The value stored at the export path is the
serializer (tostring, modelling etree.tostring) applied to the matched
node: a canonical re-serialization with double-quoted attributes (a
byte string in the prototype), not the verbatim input spelling. -/
theorem serialization_is_tostring :
    xpathPC "p" "a" false docTree = [fooAnchor] ∧
    Except.map Prod.fst (run scraper docTree "C") = .ok fullTree ∧
    getPath fullTree ["foo", "paragraph"] = some (.leaf [tostring fooAnchor]) :=
  ⟨rfl, rfl, rfl⟩

/-- A document in which the anchor is a grandchild of the paragraph:
the spec's ancestor-or-self reading selects it, the code's XPath
//p/a does not. -/
def nestedDoc : Node :=
  .elem "p" [] (nl [.elem "span" [] (nl [.elem "a" [] (nl [.text "x"])])])

/-- C2 (counterexample).  Resolving p -> a on a document where the
anchor sits under an intermediate span returns nothing, while the
claimed ancestor-or-self semantics (specSelect, written from the
spec's words) returns the anchor: the code's query //p/a requires the
child to be a direct child. -/
theorem resolver_not_ancestor_semantics :
    xpathPC "p" "a" false nestedDoc = [] ∧
    specSelect "p" "a" false nestedDoc = [Node.elem "a" [] (nl [.text "x"])] ∧
    xpathPC "p" "a" false nestedDoc ≠ specSelect "p" "a" false nestedDoc := by
  refine ⟨rfl, rfl, fun h => ?_⟩
  have h2 : ([] : List Node) = [Node.elem "a" [] (nl [.text "x"])] := h
  exact List.noConfusion h2

/-- The script of C8's counterexample: a second export whose path is a
proper prefix of the first export's path. -/
def clashScript : String :=
  "selector s = p -> a\nexport a.b.c = s\nexport a.b = s"

/-- The first two lines of clashScript alone. -/
def clashPartial : String :=
  "selector s = p -> a\nexport a.b.c = s"

/-- C8 (counterexample).  The paths a.b.c and a.b are distinct and
share the common proper prefix a, yet the second export does not leave
the first leaf unchanged: assigning at a.b replaces the intermediate
mapping that held a.b.c, removing that leaf. -/
theorem shorter_export_removes_deeper_leaf :
    runScript clashPartial docTree "C" =
      .ok (.tree [("a", .tree [("b", .tree [("c", .leaf [serializedAnchor])])])], "C") ∧
    runScript clashScript docTree "C" =
      .ok (.tree [("a", .tree [("b", .leaf [serializedAnchor])])], "C") ∧
    getPath (.tree [("a", .tree [("b", .leaf [serializedAnchor])])]) ["a", "b", "c"] =
      none :=
  ⟨rfl, rfl, rfl⟩

/-- Helper: the script parser propagates the failure of any of its
lines; an unrecognized line is never skipped. -/
theorem parseLines_fails (l : String) : ∀ (ls : List String), l ∈ ls →
    (∀ s, parseLine l ≠ .ok s) → ∃ e, parseLines ls = .error e
  | [], h, _ => absurd h (List.not_mem_nil l)
  | x :: xs, h, hbad => by
    cases hx : parseLine x with
    | error e => exact ⟨e, by simp [parseLines, hx]⟩
    | ok s? =>
      have hl : l ∈ xs := by
        rcases List.mem_cons.mp h with h1 | h1
        · exact absurd (h1 ▸ hx) (hbad s?)
        · exact h1
      obtain ⟨e, he⟩ := parseLines_fails l xs hl hbad
      exact ⟨e, by simp [parseLines, hx, he]⟩

/-- C9.  A script text containing a non-statement line fails to parse:
parseLine rejects the line (it is not blank, not a comment, and
matches none of the keyword statement shapes), and the script parser
surfaces that failure instead of producing a statement sequence. -/
theorem unrecognized_line_is_parse_failure (code l : String)
    (hmem : l ∈ splitLines code) (hbad : ∀ s, parseLine l ≠ .ok s) :
    ∃ e, parseScript code = .error e :=
  parseLines_fails l (splitLines code) hmem hbad

/-- C9 (witness): a concrete script whose second line is not a
statement; its parse fails. -/
theorem unrecognized_line_is_parse_failure_witness :
    ("frobnicate the document" ∈ splitLines "locale en_US\nfrobnicate the document") ∧
    (∀ s, parseLine "frobnicate the document" ≠ .ok s) ∧
    ∃ e, parseScript "locale en_US\nfrobnicate the document" = .error e := by
  refine ⟨by decide, fun s h => Except.noConfusion h, ?_⟩
  exact unrecognized_line_is_parse_failure "locale en_US\nfrobnicate the document"
    "frobnicate the document" (by decide) (fun s h => Except.noConfusion h)

mutual
/-- Helper: the fused direct-child query equals the document-order
filter characterization, on a single node, given that the flag agrees
with the parent-tag context. -/
theorem xpathPC_direct (parent child : String) (ctx : Option String) (b : Bool)
    (hb : b = (ctx == some parent)) :
    (n : Node) → xpathPC parent child b n =
      ((elemsWithCtx ctx n).filter
        (fun pr => pr.1 == some parent && hasTag child pr.2)).map (fun pr => pr.2)
  | .text s => by simp [xpathPC, elemsWithCtx]
  | .elem t a cs => by
    have ih := xpathPC_direct_list parent child (some t) (t == parent) rfl cs
    subst hb
    rw [xpathPC, elemsWithCtx, List.filter_cons]
    by_cases hcond : ((ctx == some parent) && (t == child)) = true
    · simp only [hasTag]
      rw [if_pos (by simpa using hcond), if_pos hcond, List.map_cons, ih]
      rfl
    · simp only [hasTag]
      rw [if_neg (by simpa using hcond), if_neg hcond, ih]
      rfl

/-- Helper: list version of xpathPC_direct. -/
theorem xpathPC_direct_list (parent child : String) (ctx : Option String) (b : Bool)
    (hb : b = (ctx == some parent)) :
    (ns : NodeList) → xpathPCL parent child b ns =
      ((elemsWithCtxL ctx ns).filter
        (fun pr => pr.1 == some parent && hasTag child pr.2)).map (fun pr => pr.2)
  | .nil => by simp [xpathPCL, elemsWithCtxL]
  | .cons c rest => by
    rw [xpathPCL, elemsWithCtxL, List.filter_append, List.map_append,
      xpathPC_direct parent child ctx b hb c, xpathPC_direct_list parent child ctx b hb rest]
end

/-- C2 (amended).  For every selector parent -> child and every
document, the resolver returns exactly the elements whose tag matches
child and whose direct parent element matches parent (the child must
be a direct child of the parent node), in document order. -/
theorem resolver_selects_direct_children (parent child : String) (doc : Node) :
    xpathPC parent child false doc = directChildMatches parent child doc :=
  xpathPC_direct parent child none false rfl doc

/-- Helper: the statement loop over a concatenation runs the first
part and, if it succeeded, continues with the second. -/
theorem evalStmts_append (doc : Node) (xs ys : List Stmt) : ∀ (st : EvalState),
    evalStmts doc (xs ++ ys) st =
      match evalStmts doc xs st with
      | .error e => .error e
      | .ok st2 => evalStmts doc ys st2 := by
  induction xs with
  | nil => intro st; simp [evalStmts]
  | cons s rest ih =>
    intro st
    rw [List.cons_append, evalStmts, evalStmts]
    cases evalStmt doc st s with
    | error e => rfl
    | ok st2 => exact ih st2

/-- Helper: when the delayed selector lookup fails and the descent
does not meet a leaf early, the export step surfaces the lookup
error. -/
theorem doExport_propagates_error (err : Err) : ∀ (p : List String) (e : EVal),
    p ≠ [] → hitsLeaf e p = false → doExport (.error err) e p = .error err
  | [], _, h, _ => absurd rfl h
  | [last], e, _, hh => by
    cases e with
    | tree m => rfl
    | leaf l => simp [hitsLeaf] at hh
  | nm :: r :: rest, e, _, hh => by
    cases e with
    | leaf l => simp [hitsLeaf] at hh
    | tree m =>
      cases hk : lookupKey m nm with
      | some c =>
        have hh2 : hitsLeaf c (r :: rest) = false := by
          rw [hitsLeaf, hk] at hh; exact hh
        have hrec := doExport_propagates_error err (r :: rest) c (by simp) hh2
        rw [doExport, hk, hrec]
      | none =>
        have hrec := doExport_propagates_error err (r :: rest) (.tree [])
          (by simp) (by rw [hitsLeaf]; rfl)
        rw [doExport, hk, hrec]

/-- C6.  If evaluation reaches an export statement whose referenced
selector name has no binding in the selector table (no earlier
selector statement declared it), and the path descent is not
obstructed by an earlier leaf, the run aborts with the
undefined-selector error (the uncaught KeyError carrying the name) and
yields no export tree; the statements after it are never evaluated. -/
theorem undefined_selector_aborts (stmtsDone : List Stmt) (p : List String) (n : String)
    (post : List Stmt) (doc : Node) (st0 st : EvalState)
    (h1 : evalStmts doc stmtsDone st0 = .ok st)
    (h2 : st.selectors n = none)
    (h3 : hitsLeaf st.exportT p = false)
    (h4 : p ≠ []) :
    evalStmts doc (stmtsDone ++ Stmt.exportStmt p n :: post) st0 =
      .error (.undefinedSelector n) := by
  rw [evalStmts_append, h1]
  show evalStmts doc (Stmt.exportStmt p n :: post) st = .error (.undefinedSelector n)
  have hv : selVals doc st.selectors n = .error (.undefinedSelector n) := by
    rw [selVals, h2]
  have hd := doExport_propagates_error (.undefinedSelector n) p st.exportT h4 h3
  rw [evalStmts, evalStmt, hv, hd]

/-- C6 (witness): the spec's own test, export out.v = missing with no
declaration in sight, evaluated against the notebook document: the
parse produces the single export statement and the run aborts with
UndefinedSelector(missing), producing no tree. -/
theorem undefined_selector_aborts_witness :
    parseScript "export out.v = missing" = .ok [Stmt.exportStmt ["out", "v"] "missing"] ∧
    runScript "export out.v = missing" docTree "C" = .error (.undefinedSelector "missing") ∧
    evalStmts docTree [Stmt.exportStmt ["out", "v"] "missing"] (initState "C") =
      .error (.undefinedSelector "missing") := by
  refine ⟨rfl, rfl, ?_⟩
  exact undefined_selector_aborts [] ["out", "v"] "missing" [] docTree (initState "C")
    (initState "C") rfl rfl rfl (by simp)

/-- Two interpreter states that agree everywhere except possibly on
the selector binding of one name. -/
def AgreesOff (a2 : String) (st st2 : EvalState) : Prop :=
  st.localeSt = st2.localeSt ∧ st.exportT = st2.exportT ∧
    ∀ k, k ≠ a2 → st.selectors k = st2.selectors k

/-- Lifts AgreesOff to loop outcomes: equal errors, or related
states. -/
def RelOutcome (a2 : String) : Except Err EvalState → Except Err EvalState → Prop
  | .ok s, .ok s2 => AgreesOff a2 s s2
  | .error e, .error e2 => e = e2
  | _, _ => False

/-- Helper: one loop iteration preserves AgreesOff, for any statement
that is not an export of the distinguished name. -/
theorem evalStmt_agreesOff (doc : Node) (a2 : String) (st st2 : EvalState)
    (hR : AgreesOff a2 st st2) (stmt : Stmt)
    (hstmt : ∀ p, stmt ≠ .exportStmt p a2) :
    RelOutcome a2 (evalStmt doc st stmt) (evalStmt doc st2 stmt) := by
  obtain ⟨hloc, hexp, hsel⟩ := hR
  cases stmt with
  | comment txt => exact ⟨hloc, hexp, hsel⟩
  | localeStmt w => exact ⟨rfl, hexp, hsel⟩
  | selectorStmt n sel =>
    refine ⟨hloc, hexp, fun k hk => ?_⟩
    by_cases hkn : k = n
    · simp [evalStmt, hkn]
    · simp [evalStmt, hkn, hsel k hk]
  | exportStmt p n =>
    have hna : n ≠ a2 := by
      intro hna
      exact hstmt p (by rw [hna])
    have hv : selVals doc st.selectors n = selVals doc st2.selectors n := by
      rw [selVals, selVals, hsel n hna]
    rw [evalStmt, evalStmt, ← hv, ← hexp]
    cases doExport (selVals doc st.selectors n) st.exportT p with
    | error e => exact rfl
    | ok e2 => exact ⟨hloc, rfl, hsel⟩

/-- Helper: the loop preserves AgreesOff over any statement list that
contains no export of the distinguished name. -/
theorem evalStmts_agreesOff (doc : Node) (a2 : String) :
    ∀ (stmts : List Stmt) (st st2 : EvalState), AgreesOff a2 st st2 →
      (∀ p, Stmt.exportStmt p a2 ∉ stmts) →
      RelOutcome a2 (evalStmts doc stmts st) (evalStmts doc stmts st2)
  | [], st, st2, hR, _ => hR
  | stmt :: rest, st, st2, hR, hmem => by
    have hstmt : ∀ p, stmt ≠ .exportStmt p a2 := by
      intro p hp
      exact hmem p (by rw [← hp]; exact List.mem_cons_self stmt rest)
    have hstep := evalStmt_agreesOff doc a2 st st2 hR stmt hstmt
    rw [evalStmts, evalStmts]
    cases h1 : evalStmt doc st stmt with
    | error e =>
      cases h2 : evalStmt doc st2 stmt with
      | error e2 =>
        have he : e = e2 := by rw [h1, h2] at hstep; exact hstep
        subst he
        exact rfl
      | ok s2 => rw [h1, h2] at hstep; exact absurd hstep (by simp [RelOutcome])
    | ok s1 =>
      cases h2 : evalStmt doc st2 stmt with
      | error e2 => rw [h1, h2] at hstep; exact absurd hstep (by simp [RelOutcome])
      | ok s2 =>
        rw [h1, h2] at hstep
        exact evalStmts_agreesOff doc a2 rest s1 s2 hstep
          (fun p hp => hmem p (List.mem_cons_of_mem stmt hp))

/-- Helper: redeclaring the distinguished name with the same selector
collapses two AgreesOff states into equal states. -/
theorem agreesOff_redecl (a2 : String) (sel2 : Selector) (st st2 : EvalState)
    (hR : AgreesOff a2 st st2) :
    ({ st with selectors := fun k => if k = a2 then some sel2 else st.selectors k }
      : EvalState) =
    { st2 with selectors := fun k => if k = a2 then some sel2 else st2.selectors k } := by
  obtain ⟨hloc, hexp, hsel⟩ := hR
  cases st with
  | mk l1 s1 e1 =>
    cases st2 with
    | mk l2 s2 e2 =>
      simp only at hloc hexp hsel
      subst hloc
      subst hexp
      have : (fun k => if k = a2 then some sel2 else s1 k) =
          (fun k => if k = a2 then some sel2 else s2 k) := by
        funext k
        by_cases hk : k = a2
        · simp [hk]
        · simp [hk, hsel k hk]
      rw [this]

/-- C7.  A later selector declaration completely replaces an earlier
binding of the same name: as long as no export uses the name between
the two declarations, the evaluation result is independent of the
earlier bound selector, for every document, start state and
continuation; every export after the second declaration resolves the
name to the last declaration only. -/
theorem selector_redeclaration_last_wins (a2 : String) (s1 s1b s2 : Selector)
    (mid post : List Stmt) (doc : Node) (st0 : EvalState)
    (hmid : ∀ p, Stmt.exportStmt p a2 ∉ mid) :
    evalStmts doc
      (Stmt.selectorStmt a2 s1 :: (mid ++ Stmt.selectorStmt a2 s2 :: post)) st0 =
    evalStmts doc
      (Stmt.selectorStmt a2 s1b :: (mid ++ Stmt.selectorStmt a2 s2 :: post)) st0 := by
  rw [evalStmts, evalStmts, evalStmt, evalStmt]
  show evalStmts doc (mid ++ Stmt.selectorStmt a2 s2 :: post)
      { st0 with selectors := fun k => if k = a2 then some s1 else st0.selectors k } =
    evalStmts doc (mid ++ Stmt.selectorStmt a2 s2 :: post)
      { st0 with selectors := fun k => if k = a2 then some s1b else st0.selectors k }
  rw [evalStmts_append, evalStmts_append]
  have hR0 : AgreesOff a2
      ({ st0 with selectors := fun k => if k = a2 then some s1 else st0.selectors k })
      ({ st0 with selectors := fun k => if k = a2 then some s1b else st0.selectors k }) := by
    refine ⟨rfl, rfl, fun k hk => ?_⟩
    simp [hk]
  have hmidrel := evalStmts_agreesOff doc a2 mid _ _ hR0 hmid
  cases hA : evalStmts doc mid
      ({ st0 with selectors := fun k => if k = a2 then some s1 else st0.selectors k }) with
  | error eA =>
    cases hB : evalStmts doc mid
        ({ st0 with selectors := fun k => if k = a2 then some s1b else st0.selectors k }) with
    | error eB =>
      have : eA = eB := by rw [hA, hB] at hmidrel; exact hmidrel
      rw [this]
    | ok sB => rw [hA, hB] at hmidrel; exact absurd hmidrel (by simp [RelOutcome])
  | ok sA =>
    cases hB : evalStmts doc mid
        ({ st0 with selectors := fun k => if k = a2 then some s1b else st0.selectors k }) with
    | error eB => rw [hA, hB] at hmidrel; exact absurd hmidrel (by simp [RelOutcome])
    | ok sB =>
      rw [hA, hB] at hmidrel
      show evalStmts doc (Stmt.selectorStmt a2 s2 :: post) sA =
        evalStmts doc (Stmt.selectorStmt a2 s2 :: post) sB
      rw [evalStmts, evalStmts, evalStmt, evalStmt,
        agreesOff_redecl a2 s2 sA sB hmidrel]

/-- The spec's overwrite test as a concrete script: the name a first
bound to li -> a, then rebound to p -> a, then exported. -/
def overwriteScript : String :=
  "selector a = li -> a\nselector a = p -> a\nexport out.a = a"

/-- C7 (witness): the theorem applied with the two concrete earlier
bindings li -> a and h1 -> a (empty middle), plus the end-to-end check
that the export of the rebound name follows p -> a only: it yields the
paragraph anchor, not the three list anchors li -> a would give. -/
theorem selector_redeclaration_last_wins_witness :
    (∀ p, Stmt.exportStmt p "a" ∉ ([] : List Stmt)) ∧
    (evalStmts docTree
      (Stmt.selectorStmt "a" ⟨"li", "a"⟩ ::
        ([] ++ Stmt.selectorStmt "a" ⟨"p", "a"⟩ :: [Stmt.exportStmt ["out", "a"] "a"]))
      (initState "C") =
     evalStmts docTree
      (Stmt.selectorStmt "a" ⟨"h1", "a"⟩ ::
        ([] ++ Stmt.selectorStmt "a" ⟨"p", "a"⟩ :: [Stmt.exportStmt ["out", "a"] "a"]))
      (initState "C")) ∧
    runScript overwriteScript docTree "C" =
      .ok (.tree [("out", .tree [("a", .leaf [serializedAnchor])])], "C") := by
  refine ⟨by simp, ?_, rfl⟩
  exact selector_redeclaration_last_wins "a" ⟨"li", "a"⟩ ⟨"h1", "a"⟩ ⟨"p", "a"⟩ []
    [Stmt.exportStmt ["out", "a"] "a"] docTree (initState "C") (by simp)

/-- Helper: lookup after assignment reads the assigned value at the
assigned key and is unchanged elsewhere. -/
theorem lookupKey_setKey (k k2 : String) (v : EVal) : ∀ (m : List (String × EVal)),
    lookupKey (setKey m k v) k2 = if k = k2 then some v else lookupKey m k2
  | [] => by
    by_cases hk : k = k2 <;> simp [setKey, lookupKey, hk]
  | (k3, v3) :: m => by
    by_cases h3 : k3 = k
    · subst h3
      rw [setKey, if_pos rfl]
      by_cases hk : k3 = k2 <;> simp [lookupKey, hk]
    · rw [setKey, if_neg h3]
      by_cases hk : k3 = k2
      · subst hk
        rw [lookupKey, if_pos rfl, lookupKey, if_pos rfl, if_neg (fun h => h3 h.symm)]
      · rw [lookupKey, if_neg hk, lookupKey, if_neg hk, lookupKey_setKey k k2 v m]

/-- Helper: an empty mapping stores nothing under any nonempty
path. -/
theorem getPath_tree_nil (k : String) (q : List String) :
    getPath (.tree []) (k :: q) = none := rfl

/-- C8 (amended).  Two exports whose dotted paths diverge at some
segment (a possibly empty shared run r, then different segments x and
y, so that neither path is a prefix of the other) do not interfere:
after a successful insertion at the path through y, the value stored
at any path through x is exactly what it was before.  (When instead
one path properly extends the other, the counterexample applies: the
shorter later export replaces the subtree, removing the deeper
leaf.) -/
theorem divergent_exports_preserved (valsE : Except Err (List String)) (x y : String)
    (hxy : x ≠ y) (s1 s2 : List String) : ∀ (r : List String) (e e2 : EVal),
    doExport valsE e (r ++ y :: s2) = .ok e2 →
    getPath e2 (r ++ x :: s1) = getPath e (r ++ x :: s1)
  | [], e, e2, h => by
    simp only [List.nil_append] at h ⊢
    cases e with
    | leaf l =>
      cases s2 with
      | nil => cases hv : valsE <;> simp [doExport, hv] at h
      | cons z zs => simp [doExport] at h
    | tree m =>
      cases s2 with
      | nil =>
        cases hv : valsE with
        | error err => simp [doExport, hv] at h
        | ok vs =>
          simp only [doExport, hv] at h
          injection h with he2
          subst he2
          rw [getPath, getPath, lookupKey_setKey, if_neg (fun hc => hxy hc.symm)]
      | cons z zs =>
        simp only [doExport] at h
        cases hrec : doExport valsE
            (match lookupKey m y with
             | some c => c
             | none => .tree []) (z :: zs) with
        | error err => rw [hrec] at h; simp at h
        | ok c2 =>
          rw [hrec] at h
          injection h with he2
          subst he2
          rw [getPath, getPath, lookupKey_setKey, if_neg (fun hc => hxy hc.symm)]
  | k :: r2, e, e2, h => by
    rw [List.cons_append] at h
    cases e with
    | leaf l =>
      cases hql : r2 ++ y :: s2 with
      | nil => exact absurd hql (by simp)
      | cons w ws => rw [hql] at h; simp [doExport] at h
    | tree m =>
      cases hql : r2 ++ y :: s2 with
      | nil => exact absurd hql (by simp)
      | cons w ws =>
        rw [hql] at h
        simp only [doExport] at h
        cases hrec : doExport valsE
            (match lookupKey m k with
             | some c => c
             | none => .tree []) (w :: ws) with
        | error err => rw [hrec] at h; simp at h
        | ok c2 =>
          rw [hrec] at h
          injection h with he2
          subst he2
          have hinner : doExport valsE
              (match lookupKey m k with
               | some c => c
               | none => .tree []) (r2 ++ y :: s2) = .ok c2 := by
            rw [hql]; exact hrec
          simp only [List.cons_append]
          rw [getPath, getPath, lookupKey_setKey, if_pos rfl]
          cases hk : lookupKey m k with
          | some c =>
            rw [hk] at hinner
            show getPath c2 (r2 ++ x :: s1) = getPath c (r2 ++ x :: s1)
            exact divergent_exports_preserved valsE x y hxy s1 s2 r2 c c2 hinner
          | none =>
            rw [hk] at hinner
            show getPath c2 (r2 ++ x :: s1) = (none : Option EVal)
            have hc2 := divergent_exports_preserved valsE x y hxy s1 s2 r2 (.tree []) c2
              hinner
            rw [hc2]
            cases r2 with
            | nil => exact getPath_tree_nil x s1
            | cons k2 r3 => exact getPath_tree_nil k2 (r3 ++ x :: s1)

/-- The sibling-paths script of the spec's nested-export test. -/
def sibScript : String :=
  "selector s = p -> a\nexport a.b.c = s\nexport a.b.d = s"

/-- C8 (witness): the amended theorem at the spec's example shape,
a.b.c then a.b.d (shared run a.b, divergent last segments), plus the
end-to-end run of the corresponding script: both leaves are present,
under the same intermediate mapping. -/
theorem divergent_exports_preserved_witness :
    ("c" : String) ≠ "d" ∧
    doExport (.ok [serializedAnchor])
      (.tree [("a", .tree [("b", .tree [("c", .leaf [serializedAnchor])])])])
      (["a", "b"] ++ "d" :: []) =
      .ok (.tree [("a", .tree [("b", .tree [("c", .leaf [serializedAnchor]),
        ("d", .leaf [serializedAnchor])])])]) ∧
    getPath (.tree [("a", .tree [("b", .tree [("c", .leaf [serializedAnchor]),
        ("d", .leaf [serializedAnchor])])])]) (["a", "b"] ++ "c" :: []) =
      getPath (.tree [("a", .tree [("b", .tree [("c", .leaf [serializedAnchor])])])])
        (["a", "b"] ++ "c" :: []) ∧
    runScript sibScript docTree "C" =
      .ok (.tree [("a", .tree [("b", .tree [("c", .leaf [serializedAnchor]),
        ("d", .leaf [serializedAnchor])])])], "C") := by
  refine ⟨by decide, rfl, ?_, rfl⟩
  exact divergent_exports_preserved (.ok [serializedAnchor]) "c" "d" (by decide) [] []
    ["a", "b"]
    (.tree [("a", .tree [("b", .tree [("c", .leaf [serializedAnchor])])])])
    (.tree [("a", .tree [("b", .tree [("c", .leaf [serializedAnchor]),
      ("d", .leaf [serializedAnchor])])])]) rfl

/-- The dotted paths of the export statements of a script, in order. -/
def pathsOf : List Stmt → List (List String)
  | [] => []
  | .exportStmt p _ :: rest => p :: pathsOf rest
  | .comment _ :: rest => pathsOf rest
  | .localeStmt _ :: rest => pathsOf rest
  | .selectorStmt _ _ :: rest => pathsOf rest

/-- Helper: a successful export step creates no leaf outside the
exported path; every leaf of the result was already a leaf, or sits
exactly at the inserted path. -/
theorem doExport_ok_leaves (valsE : Except Err (List String)) :
    ∀ (p : List String) (e e2 : EVal), doExport valsE e p = .ok e2 →
      ∀ (q : List String) (vs : List String), getPath e2 q = some (.leaf vs) →
        getPath e q = some (.leaf vs) ∨ q = p
  | [], e, e2, h => by simp [doExport] at h
  | [last], e, e2, h => by
    cases e with
    | leaf l => cases hv : valsE <;> simp [doExport, hv] at h
    | tree m =>
      cases hv : valsE with
      | error err => simp [doExport, hv] at h
      | ok vs0 =>
        simp only [doExport, hv] at h
        injection h with he2
        subst he2
        intro q vs hq
        cases q with
        | nil =>
          rw [getPath] at hq
          injection hq with hq2
          exact absurd hq2 (by simp)
        | cons k q2 =>
          rw [getPath, lookupKey_setKey] at hq
          by_cases hk : last = k
          · subst hk
            rw [if_pos rfl] at hq
            cases q2 with
            | nil => exact Or.inr rfl
            | cons k2 q3 => simp [getPath] at hq
          · rw [if_neg hk] at hq
            exact Or.inl (by rw [getPath]; exact hq)
  | nm :: r :: rest, e, e2, h => by
    cases e with
    | leaf l => simp [doExport] at h
    | tree m =>
      simp only [doExport] at h
      cases hrec : doExport valsE
          (match lookupKey m nm with
           | some c => c
           | none => .tree []) (r :: rest) with
      | error err => rw [hrec] at h; simp at h
      | ok c2 =>
        rw [hrec] at h
        injection h with he2
        subst he2
        intro q vs hq
        cases q with
        | nil =>
          rw [getPath] at hq
          injection hq with hq2
          exact absurd hq2 (by simp)
        | cons k q2 =>
          rw [getPath, lookupKey_setKey] at hq
          by_cases hk : nm = k
          · subst hk
            rw [if_pos rfl] at hq
            cases hkm : lookupKey m nm with
            | some c =>
              rw [hkm] at hrec
              rcases doExport_ok_leaves valsE (r :: rest) c c2 hrec q2 vs hq with hold | hqp
              · exact Or.inl (by rw [getPath, hkm]; exact hold)
              · exact Or.inr (by rw [hqp])
            | none =>
              rw [hkm] at hrec
              rcases doExport_ok_leaves valsE (r :: rest) (.tree []) c2 hrec q2 vs hq with
                hold | hqp
              · exfalso
                cases q2 with
                | nil =>
                  rw [getPath] at hold
                  injection hold with hold2
                  exact absurd hold2 (by simp)
                | cons k2 q3 => rw [getPath_tree_nil] at hold; exact Option.noConfusion hold
              · exact Or.inr (by rw [hqp])
          · rw [if_neg hk] at hq
            exact Or.inl (by rw [getPath]; exact hq)

/-- Helper: when the export step raises the TypeError, some strict
prefix of the export path already held a leaf. -/
theorem doExport_typeErr_blocked (valsE : Except Err (List String))
    (hv : valsE ≠ .error .typeErr) :
    ∀ (p : List String) (e : EVal), doExport valsE e p = .error .typeErr →
      ∃ (q : List String) (vs : List String), getPath e q = some (.leaf vs) ∧
        q.length < p.length ∧ ∃ t, q ++ t = p
  | [], e, h => by simp [doExport] at h
  | [last], e, h => by
    cases e with
    | leaf l =>
      cases hvv : valsE with
      | error err =>
        simp only [doExport, hvv] at h
        injection h with herr
        exact absurd (by rw [hvv, herr]) hv
      | ok vs0 =>
        exact ⟨[], l, rfl, by simp, [last], rfl⟩
    | tree m =>
      cases hvv : valsE with
      | error err =>
        simp only [doExport, hvv] at h
        injection h with herr
        exact absurd (by rw [hvv, herr]) hv
      | ok vs0 => simp [doExport, hvv] at h
  | nm :: r :: rest, e, h => by
    cases e with
    | leaf l => exact ⟨[], l, rfl, by simp, nm :: r :: rest, rfl⟩
    | tree m =>
      simp only [doExport] at h
      cases hrec : doExport valsE
          (match lookupKey m nm with
           | some c => c
           | none => .tree []) (r :: rest) with
      | error err =>
        rw [hrec] at h
        injection h with herr
        subst herr
        cases hkm : lookupKey m nm with
        | some c =>
          rw [hkm] at hrec
          obtain ⟨q, vs, hgq, hlen, t, ht⟩ :=
            doExport_typeErr_blocked valsE hv (r :: rest) c hrec
          exact ⟨nm :: q, vs, by rw [getPath, hkm]; exact hgq, by simpa using hlen,
            t, by rw [List.cons_append, ht]⟩
        | none =>
          rw [hkm] at hrec
          obtain ⟨q, vs, hgq, hlen, t, ht⟩ :=
            doExport_typeErr_blocked valsE hv (r :: rest) (.tree []) hrec
          exfalso
          cases q with
          | nil =>
            rw [getPath] at hgq
            injection hgq with hgq2
            exact absurd hgq2 (by simp)
          | cons k2 q3 => rw [getPath_tree_nil] at hgq; exact Option.noConfusion hgq
      | ok c2 => rw [hrec] at h; simp at h

/-- Helper: if every export path of the remaining script lies in a
set U closed under the no-nesting rule (a member that is a prefix of a
member equals it), and every leaf path of the current export tree lies
in U, then the loop never raises the TypeError. -/
theorem evalStmts_no_typeErr (doc : Node) (U : List (List String))
    (hU : ∀ q ∈ U, ∀ p2 ∈ U, (∃ t, q ++ t = p2) → q = p2) :
    ∀ (stmts : List Stmt) (st : EvalState),
      (∀ p2 ∈ pathsOf stmts, p2 ∈ U) →
      (∀ q vs, getPath st.exportT q = some (.leaf vs) → q ∈ U) →
      evalStmts doc stmts st ≠ .error .typeErr
  | [], st, _, _ => by simp [evalStmts]
  | .comment txt :: rest, st, hp, hleaf =>
    evalStmts_no_typeErr doc U hU rest st hp hleaf
  | .localeStmt w :: rest, st, hp, hleaf =>
    evalStmts_no_typeErr doc U hU rest { st with localeSt := w } hp hleaf
  | .selectorStmt n sel :: rest, st, hp, hleaf =>
    evalStmts_no_typeErr doc U hU rest
      { st with selectors := fun k => if k = n then some sel else st.selectors k } hp hleaf
  | .exportStmt p n :: rest, st, hp, hleaf => by
    have hpU : p ∈ U := hp p (List.mem_cons_self p (pathsOf rest))
    have hvne : selVals doc st.selectors n ≠ .error .typeErr := by
      rw [selVals]
      cases st.selectors n <;> simp
    rw [evalStmts, evalStmt]
    cases hd : doExport (selVals doc st.selectors n) st.exportT p with
    | error err =>
      intro hcontra
      have herr : err = .typeErr := by injection hcontra
      subst herr
      obtain ⟨q, vs, hgq, hlen, t, ht⟩ :=
        doExport_typeErr_blocked _ hvne p st.exportT hd
      have hqp : q = p := hU q (hleaf q vs hgq) p hpU ⟨t, ht⟩
      rw [hqp] at hlen
      exact absurd hlen (by simp)
    | ok e2 =>
      exact evalStmts_no_typeErr doc U hU rest { st with exportT := e2 }
        (fun p2 hp2 => hp p2 (List.mem_cons_of_mem p hp2))
        (fun q vs hq => by
          rcases doExport_ok_leaves _ p st.exportT e2 hd q vs hq with hold | hqp
          · exact hleaf q vs hold
          · rw [hqp]; exact hpU)

/-- The script of C10: export a stores a leaf at a, export a.b then
tries to descend through it. -/
def extendClashScript : String :=
  "selector s = p -> a\nexport a = s\nexport a.b = s"

/-- C10.  Exporting below an existing leaf does not silently turn the
leaf into a mapping: the run aborts with the TypeError from indexing
the leaf list (concretely on export a followed by export a.b), and
whenever no export path of the script is a proper prefix of another,
that error branch is unreachable for every document and start
selector table. -/
theorem leaf_extension_aborts_and_guarded :
    runScript extendClashScript docTree "C" = .error .typeErr ∧
    ∀ (stmts : List Stmt) (doc : Node) (g : String) (sel : String → Option Selector),
      (∀ q ∈ pathsOf stmts, ∀ p2 ∈ pathsOf stmts, (∃ t, q ++ t = p2) → q = p2) →
      evalStmts doc stmts ⟨g, sel, .tree []⟩ ≠ .error .typeErr := by
  refine ⟨rfl, fun stmts doc g sel hU => ?_⟩
  refine evalStmts_no_typeErr doc (pathsOf stmts) hU stmts ⟨g, sel, .tree []⟩
    (fun p2 h => h) (fun q vs hq => ?_)
  exfalso
  cases q with
  | nil =>
    injection hq with hq2
    exact absurd hq2 (by simp)
  | cons k q2 => exact Option.noConfusion (Eq.trans (getPath_tree_nil k q2).symm hq)

/-- C10 (witness): the unreachability half applied to the concrete
one-export script export a (its path set is trivially nesting-free),
with a selector table binding s. -/
theorem leaf_extension_aborts_and_guarded_witness :
    evalStmts docTree [Stmt.exportStmt ["a"] "s"]
      ⟨"C", fun _ => some ⟨"p", "a"⟩, .tree []⟩ ≠ .error .typeErr :=
  leaf_extension_aborts_and_guarded.2 [Stmt.exportStmt ["a"] "s"] docTree "C"
    (fun _ => some ⟨"p", "a"⟩)
    (by
      intro q hq p2 hp2 hpre
      simp only [pathsOf, List.mem_singleton] at hq hp2
      rw [hq, hp2])
